import Mathlib

/-!
Shallow embedding of the Markov-chain text-generation notebook
(`notebooks/misc/MarkovChains.ipynb`).

The notebook has three parts, all embedded below:

* a tokenizer loop that reads the corpus line by line, drops non-ASCII
  characters, replaces CR and LF by spaces, splits each line on single
  spaces and filters out the tokens `''` and `' '`;
* two chain builders (order 1 and order 2) that fold over the enumerated
  token list and, guarded by `n_words > i + N`, append `words[i+N]` to the
  successor list of the key made of the `N` tokens starting at `i`
  (Python dict of lists, modelled as an association list);
* the walker `markov_tweet`, which draws `r = random.randint(0,
  len(words) - 1)`, forms the start context `(words[r], words[r+1])` and
  the initial tweet `words[r] + ' ' + words[r+1]`, then, while the tweet
  is shorter than 140 characters, samples a successor of the current key
  (a `KeyError` if the key is absent), appends `' ' + w` and shifts the
  key window.

Randomness is injected: `pick : Nat → Nat` supplies for each loop step the
raw index that `random.choice` reduces modulo the list length, and the set
of values `random.randint(0, len(words) - 1)` can return is modelled by
`randintRange`.  Python exceptions are modelled with `Except`; the `while`
loop is run on a fuel of 140 steps, which is provably sufficient because
every iteration appends at least one character (`walkFrom_no_fuelOut`).
-/

set_option autoImplicit false

namespace MarkovChains

/-! ## Tokenizer -/

/-- One step of `line.encode('ascii', errors='ignore')`: every character
outside the ASCII range is dropped. -/
def asciiFilter (line : List Char) : List Char :=
  line.filter (fun c => c.toNat < 128)

/-- Python `line.replace(a, b)` for single characters. -/
def replaceChar (line : List Char) (a b : Char) : List Char :=
  line.map (fun c => if c = a then b else c)

/-- Python `line.split(' ')`: split on every single space, keeping empty
segments, accumulating the current segment in reverse. -/
def splitAux : List Char → List Char → List (List Char)
  | [], acc => [acc.reverse]
  | c :: rest, acc =>
    if c = ' ' then acc.reverse :: splitAux rest [] else splitAux rest (c :: acc)

/-- Python `line.split(' ')` on a whole line. -/
def splitOnSpace (line : List Char) : List (List Char) :=
  splitAux line []

/-- The body of the corpus loop for one line:
`line.encode('ascii', errors='ignore')`, then
`line.replace('\r', ' ').replace('\n', ' ')`, then `line.split(' ')`,
then `[word for word in new_words if word not in ['', ' ']]`. -/
def tokenizeLine (line : List Char) : List (List Char) :=
  (splitOnSpace (replaceChar (replaceChar (asciiFilter line) '\r' ' ') '\n' ' ')).filter
    (fun w => !(decide (w = []) || decide (w = [' '])))

/-- The whole corpus loop: `words = words + new_words` over the lines. -/
def tokenize (ls : List (List Char)) : List (List Char) :=
  ls.foldl (fun words l => words ++ tokenizeLine l) []

/-! ## Chain builder (Python dict of lists as an association list) -/

/-- Python `chain[k]` as a total lookup: `some` of the successor list when the
key is present, `none` when `k not in chain`. -/
def lookup {κ : Type} [DecidableEq κ] : List (κ × List String) → κ → Option (List String)
  | [], _ => none
  | (k', l) :: rest, k => if k = k' then some l else lookup rest k

/-- Python `if key not in chain: chain[key] = [word] else: chain[key].append(word)`.
Insertion order of keys is preserved, as in a Python dict. -/
def chainAppend {κ : Type} [DecidableEq κ] :
    List (κ × List String) → κ → String → List (κ × List String)
  | [], k, w => [(k, [w])]
  | (k', l) :: rest, k, w =>
    if k = k' then (k', l ++ [w]) :: rest else (k', l) :: chainAppend rest k w

/-- The loop body of the order-1 builder at index `i`:
`if n_words > (i + 1): word = words[i + 1]; ...append...`. -/
def build1Step (words : List String) (chain : List (String × List String)) (i : Nat) :
    List (String × List String) :=
  if words.length > i + 1 then
    match words.get? i, words.get? (i + 1) with
    | some key, some word => chainAppend chain key word
    | _, _ => chain
  else chain

/-- The order-1 builder after the first `m` loop iterations. -/
def build1Upto (words : List String) (m : Nat) : List (String × List String) :=
  (List.range m).foldl (build1Step words) []

/-- The order-1 chain builder: `for i, key in enumerate(words): ...`. -/
def buildChain1 (words : List String) : List (String × List String) :=
  build1Upto words words.length

/-- The loop body of the order-2 builder at index `i`:
`if n_words > i + 2: key2 = words[i+1]; word = words[i+2]; ...append...`. -/
def build2Step (words : List String) (chain : List ((String × String) × List String))
    (i : Nat) : List ((String × String) × List String) :=
  if words.length > i + 2 then
    match words.get? i, words.get? (i + 1), words.get? (i + 2) with
    | some key1, some key2, some word => chainAppend chain (key1, key2) word
    | _, _, _ => chain
  else chain

/-- The order-2 builder after the first `m` loop iterations. -/
def build2Upto (words : List String) (m : Nat) : List ((String × String) × List String) :=
  (List.range m).foldl (build2Step words) []

/-- The order-2 chain builder: `for i, key1 in enumerate(words): ...`. -/
def buildChain2 (words : List String) : List ((String × String) × List String) :=
  build2Upto words words.length

/-! ## Walker -/

/-- The Python exceptions the walker can raise, plus the fuel marker of
the embedded `while` loop (shown unreachable in `walkFrom_no_fuelOut`). -/
inductive PyErr : Type
  | keyError (k : String × String)
  | indexErr
  | fuelOut
  deriving DecidableEq

/-- The set of values `random.randint(0, len(words) - 1)` can return:
both bounds are inclusive. -/
def randintRange (words : List String) : List Nat :=
  List.range words.length

/-- The `while len(tweet) < 140` loop of `markov_tweet`:
`w = random.choice(chain[key]); tweet += ' ' + w; key = (key[1], w)`.
`chain[key]` on an absent key is a `KeyError`; `random.choice` on step
`n` picks index `pick n % len(lst)`. -/
def walkFrom (chain : List ((String × String) × List String)) (pick : Nat → Nat) :
    Nat → Nat → String → String × String → Except PyErr String
  | fuel, n, tweet, key =>
    if tweet.length < 140 then
      match fuel with
      | 0 => .error .fuelOut
      | fuel' + 1 =>
        match lookup chain key with
        | none => .error (.keyError key)
        | some [] => .error .indexErr
        | some (w0 :: ws) =>
          let lst := w0 :: ws
          let w := lst.get ⟨pick n % lst.length, Nat.mod_lt _ (Nat.succ_pos ws.length)⟩
          walkFrom chain pick fuel' (n + 1) (tweet ++ " " ++ w) (key.2, w)
    else .ok tweet

/-- The trace of the sampling loop: the same recursion as `walkFrom`,
step for step, but collecting the sampled tokens in order instead of the
rendered text.  It is a function of the same arguments, so the trace of a
run is uniquely determined. -/
def walkTrace (chain : List ((String × String) × List String)) (pick : Nat → Nat) :
    Nat → Nat → String → String × String → Except PyErr (List String)
  | fuel, n, tweet, key =>
    if tweet.length < 140 then
      match fuel with
      | 0 => .error .fuelOut
      | fuel' + 1 =>
        match lookup chain key with
        | none => .error (.keyError key)
        | some [] => .error .indexErr
        | some (w0 :: ws) =>
          let lst := w0 :: ws
          let w := lst.get ⟨pick n % lst.length, Nat.mod_lt _ (Nat.succ_pos ws.length)⟩
          match walkTrace chain pick fuel' (n + 1) (tweet ++ " " ++ w) (key.2, w) with
          | .ok ts => .ok (w :: ts)
          | .error e => .error e
    else .ok []

/-- Python `markov_tweet(chain, words)` with the random draw `r` and the choice
source `pick` made explicit: `key = (words[r], words[r + 1])`,
`tweet = key[0] + ' ' + key[1]`, then the sampling loop. -/
def markov_tweet (chain : List ((String × String) × List String)) (words : List String)
    (r : Nat) (pick : Nat → Nat) : Except PyErr String :=
  match words.get? r, words.get? (r + 1) with
  | some w1, some w2 => walkFrom chain pick 140 0 (w1 ++ " " ++ w2) (w1, w2)
  | _, _ => .error .indexErr

/-! ## Spec-side characterization of the chain builders -/

/-- Modelled from the spec: the ordered list of successors of the order-1
context key `k`, i.e. `words[i+1]` for every index `i` with
`words[i] = k` and `i + 1 < length`, in order of occurrence, restricted to
the first `m` loop iterations. -/
def succs1Upto (words : List String) (m : Nat) (k : String) : List String :=
  (List.range m).filterMap (fun i =>
    if words.get? i = some k ∧ i + 1 < words.length then words.get? (i + 1) else none)

/-- Modelled from the spec: the ordered list of successors of the order-1
context key `k` over the whole corpus. -/
def succsSpec1 (words : List String) (k : String) : List String :=
  succs1Upto words words.length k

/-- Modelled from the spec: the ordered list of successors of the order-2
context key `k`, i.e. `words[i+2]` for every index `i` with
`words[i] = k.1`, `words[i+1] = k.2` and `i + 2 < length`, in order of
occurrence, restricted to the first `m` loop iterations. -/
def succs2Upto (words : List String) (m : Nat) (k : String × String) : List String :=
  (List.range m).filterMap (fun i =>
    if words.get? i = some k.1 ∧ words.get? (i + 1) = some k.2 ∧ i + 2 < words.length then
      words.get? (i + 2)
    else none)

/-- Modelled from the spec: the ordered list of successors of the order-2
context key `k` over the whole corpus. -/
def succsSpec2 (words : List String) (k : String × String) : List String :=
  succs2Upto words words.length k

/-- The chain value a successor list denotes: a key with no occurrence is
absent from the dict, any other key is mapped to its nonempty list. -/
def toChainVal (l : List String) : Option (List String) :=
  if l = [] then none else some l

/-! ## Concrete inputs used to evaluate the embedded program -/

/-- The corpus of the notebook's running example phrase. -/
def tbf : List String :=
  ["the", "brown", "fox", "jumped", "over", "the", "lazy", "dog"]

/-- A 30-character token, long enough that a few loop iterations reach the
140-character threshold. -/
def aTok : String := "aaaaaaaaaaaaaaaaaaaaaaaaaaaaaa"

/-- A three-token corpus whose order-2 chain is closed under the walk: the
only key is `(aTok, aTok)` and its only successor is `aTok`. -/
def wWords : List String := [aTok, aTok, aTok]

/-- The output of `markov_tweet (buildChain2 wWords) wWords 0 pick`: the
start context plus three sampled tokens, 154 characters. -/
def outW : String := aTok ++ " " ++ aTok ++ " " ++ aTok ++ " " ++ aTok ++ " " ++ aTok

theorem toChainVal_getD (l : List String) : (toChainVal l).getD [] = l := by
  cases l <;> simp [toChainVal]

theorem toChainVal_append (l : List String) (w : String) :
    toChainVal (l ++ [w]) = some (l ++ [w]) := by
  simp [toChainVal]

theorem lookup_chainAppend {κ : Type} [DecidableEq κ]
    (c : List (κ × List String)) (k k' : κ) (w : String) :
    lookup (chainAppend c k w) k' =
      if k' = k then some (((lookup c k).getD []) ++ [w]) else lookup c k' := by
  induction c with
  | nil =>
    by_cases h : k' = k <;> simp [chainAppend, lookup, h]
  | cons p rest ih =>
    obtain ⟨k₀, l₀⟩ := p
    by_cases hk : k = k₀
    · subst hk
      by_cases h' : k' = k <;> simp [chainAppend, lookup, h']
    · have hne : ¬ (k : κ) = k₀ := hk
      by_cases h' : k' = k
      · subst h'
        simp [chainAppend, lookup, hne, ih]
      · have hne' : ¬ (k₀ : κ) = k := fun h => hne h.symm
        by_cases h₀ : k' = k₀ <;> simp [chainAppend, lookup, hne, hne', h₀, ih, h']

theorem foldl_range_succ {α : Type} (f : α → Nat → α) (a : α) (m : Nat) :
    (List.range (m + 1)).foldl f a = f ((List.range m).foldl f a) m := by
  rw [List.range_succ, List.foldl_append]
  rfl

theorem filterMap_range_succ {α : Type} (f : Nat → Option α) (m : Nat) :
    (List.range (m + 1)).filterMap f =
      (List.range m).filterMap f ++ (f m).toList := by
  rw [List.range_succ, List.filterMap_append]
  cases h : f m <;> simp [List.filterMap, h]

theorem lookup_build1Upto (words : List String) (m : Nat) (k : String) :
    lookup (build1Upto words m) k = toChainVal (succs1Upto words m k) := by
  induction m with
  | zero => rfl
  | succ m ih =>
    have hb : build1Upto words (m + 1) = build1Step words (build1Upto words m) m :=
      foldl_range_succ _ _ _
    have hs : succs1Upto words (m + 1) k =
        succs1Upto words m k ++
          (if words.get? m = some k ∧ m + 1 < words.length then words.get? (m + 1)
           else none).toList :=
      filterMap_range_succ _ _
    rw [hb, hs]
    by_cases hlen : m + 1 < words.length
    · have hm : m < words.length := Nat.lt_of_succ_lt hlen
      obtain ⟨keym, hkeym⟩ : ∃ a, words.get? m = some a := by
        rw [List.get?_eq_get hm]; exact ⟨_, rfl⟩
      obtain ⟨wordm, hwordm⟩ : ∃ a, words.get? (m + 1) = some a := by
        rw [List.get?_eq_get hlen]; exact ⟨_, rfl⟩
      have hstep : build1Step words (build1Upto words m) m =
          chainAppend (build1Upto words m) keym wordm := by
        unfold build1Step
        rw [if_pos hlen, hkeym, hwordm]
      rw [hstep, lookup_chainAppend]
      by_cases hk : k = keym
      · subst hk
        have hcond : words.get? m = some k ∧ m + 1 < words.length := ⟨hkeym, hlen⟩
        rw [if_pos rfl, if_pos hcond, hwordm, ih, toChainVal_getD]
        simp [Option.toList, toChainVal_append]
      · have hcond : ¬ (words.get? m = some k ∧ m + 1 < words.length) := fun hc =>
          hk (Option.some.inj (hc.1.symm.trans hkeym))
        rw [if_neg hk, if_neg hcond]
        simp [ih]
    · have hstep : build1Step words (build1Upto words m) m = build1Upto words m := by
        simp [build1Step, hlen]
      have hcond : ¬ (words.get? m = some k ∧ m + 1 < words.length) := fun hc => hlen hc.2
      rw [hstep, if_neg hcond]
      simp [ih]

theorem lookup_build2Upto (words : List String) (m : Nat) (k : String × String) :
    lookup (build2Upto words m) k = toChainVal (succs2Upto words m k) := by
  induction m with
  | zero => rfl
  | succ m ih =>
    have hb : build2Upto words (m + 1) = build2Step words (build2Upto words m) m :=
      foldl_range_succ _ _ _
    have hs : succs2Upto words (m + 1) k =
        succs2Upto words m k ++
          (if words.get? m = some k.1 ∧ words.get? (m + 1) = some k.2 ∧
              m + 2 < words.length then words.get? (m + 2)
           else none).toList :=
      filterMap_range_succ _ _
    rw [hb, hs]
    by_cases hlen : m + 2 < words.length
    · have hm1 : m + 1 < words.length := Nat.lt_of_succ_lt hlen
      have hm : m < words.length := Nat.lt_of_succ_lt hm1
      obtain ⟨keym, hkeym⟩ : ∃ a, words.get? m = some a := by
        rw [List.get?_eq_get hm]; exact ⟨_, rfl⟩
      obtain ⟨keym', hkeym'⟩ : ∃ a, words.get? (m + 1) = some a := by
        rw [List.get?_eq_get hm1]; exact ⟨_, rfl⟩
      obtain ⟨wordm, hwordm⟩ : ∃ a, words.get? (m + 2) = some a := by
        rw [List.get?_eq_get hlen]; exact ⟨_, rfl⟩
      have hstep : build2Step words (build2Upto words m) m =
          chainAppend (build2Upto words m) (keym, keym') wordm := by
        unfold build2Step
        rw [if_pos hlen, hkeym, hkeym', hwordm]
      rw [hstep, lookup_chainAppend]
      by_cases hk : k = (keym, keym')
      · subst hk
        have hcond : words.get? m = some (keym, keym').1 ∧
            words.get? (m + 1) = some (keym, keym').2 ∧ m + 2 < words.length :=
          ⟨hkeym, hkeym', hlen⟩
        rw [if_pos rfl, if_pos hcond, hwordm, ih, toChainVal_getD]
        simp [Option.toList, toChainVal_append]
      · have hcond : ¬ (words.get? m = some k.1 ∧ words.get? (m + 1) = some k.2 ∧
            m + 2 < words.length) := by
          intro hc
          apply hk
          have h1 : k.1 = keym := Option.some.inj (hc.1.symm.trans hkeym)
          have h2 : k.2 = keym' := Option.some.inj (hc.2.1.symm.trans hkeym')
          exact Prod.ext h1 h2
        rw [if_neg hk, if_neg hcond]
        simp [ih]
    · have hstep : build2Step words (build2Upto words m) m = build2Upto words m := by
        simp [build2Step, hlen]
      have hcond : ¬ (words.get? m = some k.1 ∧ words.get? (m + 1) = some k.2 ∧
          m + 2 < words.length) := fun hc => hlen hc.2.2
      rw [hstep, if_neg hcond]
      simp [ih]

/-! ## Walker lemmas -/

theorem walkFrom_of_not_lt (chain : List ((String × String) × List String))
    (pick : Nat → Nat) (fuel n : Nat) (tweet : String) (key : String × String)
    (h : ¬ tweet.length < 140) :
    walkFrom chain pick fuel n tweet key = .ok tweet := by
  cases fuel <;> simp [walkFrom, h]

/-- The fuel of the embedded `while` loop is an artifact: with fuel at
least `140 - tweet.length` the loop never runs out, because every
iteration appends at least the one-character separator. -/
theorem length_space : (" " : String).length = 1 := rfl

theorem walkFrom_no_fuelOut (chain : List ((String × String) × List String))
    (pick : Nat → Nat) (fuel n : Nat) (tweet : String) (key : String × String)
    (h : 140 ≤ fuel + tweet.length) :
    walkFrom chain pick fuel n tweet key ≠ .error .fuelOut := by
  induction fuel generalizing n tweet key with
  | zero =>
    have hlt : ¬ tweet.length < 140 := by omega
    simp [walkFrom, hlt]
  | succ fuel ih =>
    by_cases hlt : tweet.length < 140
    · rw [walkFrom, if_pos hlt]
      cases hl : lookup chain key with
      | none => simp
      | some l =>
        cases l with
        | nil => simp
        | cons w0 ws =>
          simp only
          apply ih
          simp only [String.length_append, length_space]
          omega
    · simp [walkFrom, hlt]

theorem walkFrom_ok (chain : List ((String × String) × List String))
    (pick : Nat → Nat) (fuel n : Nat) (tweet : String) (key : String × String)
    (out : String) (h : walkFrom chain pick fuel n tweet key = .ok out) :
    140 ≤ out.length ∧ ∃ s, out = tweet ++ s := by
  induction fuel generalizing n tweet key with
  | zero =>
    by_cases hlt : tweet.length < 140
    · simp [walkFrom, hlt] at h
    · simp [walkFrom, hlt] at h
      subst h
      exact ⟨Nat.le_of_not_lt hlt, "", (String.append_empty tweet).symm⟩
  | succ fuel ih =>
    by_cases hlt : tweet.length < 140
    · rw [walkFrom, if_pos hlt] at h
      cases hl : lookup chain key with
      | none => rw [hl] at h; simp at h
      | some l =>
        cases l with
        | nil => rw [hl] at h; simp at h
        | cons w0 ws =>
          rw [hl] at h
          simp only at h
          obtain ⟨h140, s, hs⟩ := ih _ _ _ h
          refine ⟨h140, " " ++ (w0 :: ws).get ⟨pick n % (w0 :: ws).length,
            Nat.mod_lt _ (Nat.succ_pos ws.length)⟩ ++ s, ?_⟩
          simp [hs, String.append_assoc]
    · rw [walkFrom_of_not_lt chain pick _ n tweet key hlt] at h
      injection h with h
      subst h
      exact ⟨Nat.le_of_not_lt hlt, "", (String.append_empty tweet).symm⟩

/-! ## Tokenizer lemmas -/

theorem replaceCRLF_all_space (line : List Char)
    (h : ∀ c ∈ line, c = ' ' ∨ c = '\r' ∨ c = '\n') :
    ∀ c ∈ replaceChar (replaceChar (asciiFilter line) '\r' ' ') '\n' ' ', c = ' ' := by
  intro c hc
  unfold replaceChar at hc
  obtain ⟨c1, hc1, hcc1⟩ := List.mem_map.mp hc
  obtain ⟨c2, hc2, hcc2⟩ := List.mem_map.mp hc1
  have hd := h c2 (List.mem_filter.mp hc2).1
  subst hcc1
  subst hcc2
  rcases hd with h1 | h1 | h1 <;> rw [h1] <;> rfl

theorem splitAux_all_space (l : List Char) (h : ∀ c ∈ l, c = ' ') :
    ∀ w ∈ splitAux l [], w = [] := by
  induction l with
  | nil =>
    intro w hw
    simp only [splitAux, List.reverse_nil, List.mem_singleton] at hw
    exact hw
  | cons c rest ih =>
    intro w hw
    have hc : c = ' ' := h c (List.mem_cons_self c rest)
    simp only [splitAux] at hw
    rw [if_pos hc] at hw
    rcases List.mem_cons.mp hw with h' | h'
    · simpa using h'
    · exact ih (fun d hd => h d (List.mem_cons_of_mem c hd)) w h'

theorem tokenizeLine_of_space_cr_lf (line : List Char)
    (h : ∀ c ∈ line, c = ' ' ∨ c = '\r' ∨ c = '\n') :
    tokenizeLine line = [] := by
  unfold tokenizeLine splitOnSpace
  rw [List.filter_eq_nil_iff]
  intro w hw
  have hwe : w = [] := splitAux_all_space _ (replaceCRLF_all_space line h) w hw
  subst hwe
  decide

theorem tokenize_foldl_of_empty (ls : List (List Char)) :
    ∀ acc : List (List Char), (∀ line ∈ ls, tokenizeLine line = []) →
      ls.foldl (fun words l => words ++ tokenizeLine l) acc = acc := by
  induction ls with
  | nil => intro acc _; rfl
  | cons a as ih =>
    intro acc h
    have ha : tokenizeLine a = [] := h a (List.mem_cons_self a as)
    simp only [List.foldl_cons, ha, List.append_nil]
    exact ih acc (fun l hl => h l (List.mem_cons_of_mem a hl))

theorem mem_tokenize_foldl (ls : List (List Char)) :
    ∀ (acc : List (List Char)) (w : List Char),
      w ∈ ls.foldl (fun words l => words ++ tokenizeLine l) acc →
      w ∈ acc ∨ ∃ l ∈ ls, w ∈ tokenizeLine l := by
  induction ls with
  | nil => exact fun acc w hw => Or.inl hw
  | cons a as ih =>
    intro acc w hw
    simp only [List.foldl_cons] at hw
    rcases ih (acc ++ tokenizeLine a) w hw with h' | h'
    · rcases List.mem_append.mp h' with h'' | h''
      · exact Or.inl h''
      · exact Or.inr ⟨a, List.mem_cons_self a as, h''⟩
    · obtain ⟨l, hl, hwl⟩ := h'
      exact Or.inr ⟨l, List.mem_cons_of_mem a hl, hwl⟩

theorem splitAux_chars (l : List Char) :
    ∀ acc : List Char, (∀ c ∈ acc, c ≠ ' ') →
      ∀ w ∈ splitAux l acc, ∀ c ∈ w, (c ∈ acc ∨ c ∈ l) ∧ c ≠ ' ' := by
  induction l with
  | nil =>
    intro acc hacc w hw c hc
    simp only [splitAux, List.mem_singleton] at hw
    subst hw
    have hm := List.mem_reverse.mp hc
    exact ⟨Or.inl hm, hacc c hm⟩
  | cons c0 rest ih =>
    intro acc hacc w hw c hc
    by_cases h0 : c0 = ' '
    · simp only [splitAux] at hw
      rw [if_pos h0] at hw
      rcases List.mem_cons.mp hw with h' | h'
      · subst h'
        have hm := List.mem_reverse.mp hc
        exact ⟨Or.inl hm, hacc c hm⟩
      · obtain ⟨hin, hne⟩ := ih [] (by simp) w h' c hc
        rcases hin with hin | hin
        · simp at hin
        · exact ⟨Or.inr (List.mem_cons_of_mem c0 hin), hne⟩
    · simp only [splitAux] at hw
      rw [if_neg h0] at hw
      have hacc' : ∀ d ∈ c0 :: acc, d ≠ ' ' := by
        intro d hd
        rcases List.mem_cons.mp hd with h'' | h''
        · exact h'' ▸ h0
        · exact hacc d h''
      obtain ⟨hin, hne⟩ := ih (c0 :: acc) hacc' w hw c hc
      rcases hin with hin | hin
      · rcases List.mem_cons.mp hin with h'' | h''
        · exact ⟨Or.inr (h'' ▸ List.mem_cons_self c0 rest), hne⟩
        · exact ⟨Or.inl h'', hne⟩
      · exact ⟨Or.inr (List.mem_cons_of_mem c0 hin), hne⟩

theorem replaceCRLF_no_cr_lf (line : List Char) :
    ∀ c ∈ replaceChar (replaceChar (asciiFilter line) '\r' ' ') '\n' ' ',
      c ≠ '\r' ∧ c ≠ '\n' := by
  intro c hc
  unfold replaceChar at hc
  obtain ⟨c1, hc1, hcc1⟩ := List.mem_map.mp hc
  obtain ⟨c2, hc2, hcc2⟩ := List.mem_map.mp hc1
  subst hcc1
  subst hcc2
  by_cases h2 : c2 = '\r'
  · rw [h2]; decide
  · by_cases h2' : c2 = '\n'
    · rw [h2']; decide
    · rw [if_neg h2, if_neg h2']
      exact ⟨h2, h2'⟩

theorem tokenizeLine_shape (line : List Char) (w : List Char)
    (hw : w ∈ tokenizeLine line) :
    w ≠ [] ∧ w ≠ [' '] ∧ ∀ c ∈ w, c ≠ ' ' ∧ c ≠ '\r' ∧ c ≠ '\n' := by
  unfold tokenizeLine splitOnSpace at hw
  obtain ⟨hw1, hw2⟩ := List.mem_filter.mp hw
  have hne : w ≠ [] ∧ w ≠ [' '] := by
    constructor <;> intro h' <;> subst h' <;> simp at hw2
  refine ⟨hne.1, hne.2, ?_⟩
  intro c hc
  obtain ⟨hin, hnsp⟩ := splitAux_chars _ [] (by simp) w hw1 c hc
  rcases hin with hin | hin
  · simp at hin
  · exact ⟨hnsp, (replaceCRLF_no_cr_lf line c hin).1, (replaceCRLF_no_cr_lf line c hin).2⟩

/-! ## Claims -/

/-- Claim C1: the spec demands that the randomly chosen start index `r`
always lie in `[0, length(words) - N]` for `N = 2`, so that the initial
context is a window used as a chain key.  The code draws
`r = random.randint(0, len(words) - 1)`, so on the three-token corpus the
draw `r = 2` is possible, lies outside the claimed range
`[0, 3 - 2] = [0, 1]`, and makes `markov_tweet` read `words[3]`, an
out-of-bounds access (`IndexError`), instead of a valid start context. -/
theorem start_index_range_bug :
    2 ∈ randintRange ["a", "b", "c"] ∧
    ¬ 2 ≤ ["a", "b", "c"].length - 2 ∧
    markov_tweet [] ["a", "b", "c"] 2 (fun _ => 0) = .error .indexErr :=
  ⟨by decide, by decide, rfl⟩

/-- Claim C2: for every non-empty corpus, `r = len(words) - 1` is a value
`random.randint(0, len(words) - 1)` can return, and at that value the
start-context construction reads `words[r + 1]`, one past the end of the
corpus, so `markov_tweet` fails with an index error. -/
theorem start_index_can_overflow (words : List String) (h : words ≠ []) :
    (words.length - 1) ∈ randintRange words ∧
    words.get? (words.length - 1 + 1) = none ∧
    ∀ (chain : List ((String × String) × List String)) (pick : Nat → Nat),
      markov_tweet chain words (words.length - 1) pick = .error .indexErr := by
  have hpos : 0 < words.length := List.length_pos.mpr h
  have hmem : words.length - 1 ∈ randintRange words := by
    rw [randintRange, List.mem_range]
    omega
  have hnone : words.get? (words.length - 1 + 1) = none := by
    rw [List.get?_eq_none]
    omega
  refine ⟨hmem, hnone, ?_⟩
  intro chain pick
  have hlt : words.length - 1 < words.length := by omega
  obtain ⟨w1, hw1⟩ : ∃ a, words.get? (words.length - 1) = some a := by
    rw [List.get?_eq_get hlt]
    exact ⟨_, rfl⟩
  unfold markov_tweet
  rw [hw1, hnone]

theorem start_index_can_overflow_witness :
    0 ∈ randintRange ["a"] ∧ ["a"].get? 1 = none ∧
    markov_tweet [] ["a"] 0 (fun _ => 0) = .error .indexErr :=
  ⟨(start_index_can_overflow ["a"] (by decide)).1,
   (start_index_can_overflow ["a"] (by decide)).2.1,
   (start_index_can_overflow ["a"] (by decide)).2.2 [] (fun _ => 0)⟩

/-- Claim C3: for every corpus and order `N ∈ {1, 2}`, the built chain
maps a context key to a successor list exactly when the key occurs as an
`N`-token consecutive subsequence at some index `i` with
`i + N < length`, and the list holds `words[i + N]` for every such
occurrence, in order of occurrence and with multiplicity preserved. -/
theorem chain_builder_characterization :
    (∀ (words : List String) (k : String),
        lookup (buildChain1 words) k = toChainVal (succsSpec1 words k)) ∧
    (∀ (words : List String) (k : String × String),
        lookup (buildChain2 words) k = toChainVal (succsSpec2 words k)) :=
  ⟨fun words k => lookup_build1Upto words words.length k,
   fun words k => lookup_build2Upto words words.length k⟩

/-- Claim C4: whenever the walker's loop terminates normally, the output
has at least 140 characters and begins with the space-joined tokens of
the chosen start context. -/
theorem tweet_length_and_start_context (chain : List ((String × String) × List String))
    (words : List String) (r : Nat) (pick : Nat → Nat) (out : String)
    (h : markov_tweet chain words r pick = .ok out) :
    140 ≤ out.length ∧ ∃ w1 w2 s, words.get? r = some w1 ∧
      words.get? (r + 1) = some w2 ∧ out = w1 ++ " " ++ w2 ++ s := by
  unfold markov_tweet at h
  cases hg1 : words.get? r with
  | none => rw [hg1] at h; simp at h
  | some w1 =>
    cases hg2 : words.get? (r + 1) with
    | none => rw [hg1, hg2] at h; simp at h
    | some w2 =>
      rw [hg1, hg2] at h
      simp only at h
      obtain ⟨h140, s, hs⟩ := walkFrom_ok _ _ _ _ _ _ _ h
      exact ⟨h140, w1, w2, s, rfl, rfl, by simp [hs, String.append_assoc]⟩

theorem tweet_length_and_start_context_witness :
    140 ≤ outW.length ∧ ∃ w1 w2 s, wWords.get? 0 = some w1 ∧
      wWords.get? 1 = some w2 ∧ outW = w1 ++ " " ++ w2 ++ s :=
  tweet_length_and_start_context (buildChain2 wWords) wWords 0 (fun _ => 0) outW rfl

/-- Claim C5: inside the walker's loop, an absent context key makes the
walk fail at once with the `KeyError` carrying that key, and a `KeyError`
outcome happens only when the chain has no entry for the reported key; no
retry or recovery is attempted. -/
theorem missing_context_key_error :
    (∀ (chain : List ((String × String) × List String)) (pick : Nat → Nat)
        (fuel n : Nat) (tweet : String) (key : String × String),
        tweet.length < 140 → lookup chain key = none →
        walkFrom chain pick (fuel + 1) n tweet key = .error (.keyError key)) ∧
    (∀ (chain : List ((String × String) × List String)) (pick : Nat → Nat)
        (fuel n : Nat) (tweet : String) (key k : String × String),
        walkFrom chain pick fuel n tweet key = .error (.keyError k) →
        lookup chain k = none) := by
  constructor
  · intro chain pick fuel n tweet key hlt hnone
    rw [walkFrom, if_pos hlt, hnone]
  · intro chain pick fuel n tweet key k
    induction fuel generalizing n tweet key with
    | zero =>
      intro h
      by_cases hlt : tweet.length < 140 <;> simp [walkFrom, hlt] at h
    | succ fuel ih =>
      intro h
      by_cases hlt : tweet.length < 140
      · rw [walkFrom, if_pos hlt] at h
        cases hl : lookup chain key with
        | none =>
          rw [hl] at h
          simp only at h
          injection h with h
          injection h with h
          exact h ▸ hl
        | some l =>
          cases l with
          | nil => rw [hl] at h; simp at h
          | cons w0 ws =>
            rw [hl] at h
            simp only at h
            exact ih _ _ _ h
      · rw [walkFrom_of_not_lt _ _ _ _ _ _ hlt] at h
        simp at h

theorem missing_context_key_error_witness :
    walkFrom [] (fun _ => 0) 140 0 "x" ("a", "b") = .error (.keyError ("a", "b")) :=
  missing_context_key_error.1 [] (fun _ => 0) 139 0 "x" ("a", "b") (by decide) rfl

/-- Claim C6: when the loop terminates normally, the output is exactly the
start text with every sampled token of the run's trace appended behind a
space separator (so no truncation is performed), and, when at least one
token was appended, the output's length is at most `140` plus the length
of the last sampled token of the trace. -/
theorem tweet_overshoot_bound (chain : List ((String × String) × List String))
    (pick : Nat → Nat) (fuel n : Nat) (tweet : String) (key : String × String)
    (out : String) (h : walkFrom chain pick fuel n tweet key = .ok out) :
    ∃ ts, walkTrace chain pick fuel n tweet key = .ok ts ∧
      out = ts.foldl (fun acc w => acc ++ " " ++ w) tweet ∧
      ∀ w ∈ ts.getLast?, out.length ≤ 140 + w.length := by
  induction fuel generalizing n tweet key with
  | zero =>
    by_cases hlt : tweet.length < 140
    · simp [walkFrom, hlt] at h
    · simp [walkFrom, hlt] at h
      subst h
      exact ⟨[], by simp [walkTrace, hlt], rfl, by simp⟩
  | succ fuel ih =>
    by_cases hlt : tweet.length < 140
    · rw [walkFrom, if_pos hlt] at h
      cases hl : lookup chain key with
      | none => rw [hl] at h; simp at h
      | some l =>
        cases l with
        | nil => rw [hl] at h; simp at h
        | cons w0 ws =>
          rw [hl] at h
          simp only at h
          obtain ⟨ts', htr', hout', hlast'⟩ := ih _ _ _ h
          refine ⟨(w0 :: ws).get ⟨pick n % (w0 :: ws).length,
            Nat.mod_lt _ (Nat.succ_pos ws.length)⟩ :: ts', ?_, ?_, ?_⟩
          · rw [walkTrace, if_pos hlt, hl]
            simp only [htr']
          · rw [List.foldl_cons]
            exact hout'
          · intro v hv
            cases ts' with
            | nil =>
              rw [List.foldl_nil] at hout'
              simp only [List.getLast?_singleton, Option.mem_some_iff] at hv
              subst hv
              rw [hout']
              simp only [String.length_append, length_space]
              omega
            | cons t ts'' =>
              rw [List.getLast?_cons_cons] at hv
              exact hlast' v hv
    · rw [walkFrom_of_not_lt _ _ _ _ _ _ hlt] at h
      injection h with h
      subst h
      exact ⟨[], by simp [walkTrace, hlt], rfl, by simp⟩

theorem tweet_overshoot_bound_witness :
    ∃ ts, walkTrace (buildChain2 wWords) (fun _ => 0) 140 0
        (aTok ++ " " ++ aTok) (aTok, aTok) = .ok ts ∧
      outW = ts.foldl (fun acc w => acc ++ " " ++ w) (aTok ++ " " ++ aTok) ∧
      ∀ w ∈ ts.getLast?, outW.length ≤ 140 + w.length :=
  tweet_overshoot_bound (buildChain2 wWords) (fun _ => 0) 140 0
    (aTok ++ " " ++ aTok) (aTok, aTok) outW rfl

/-- Claim C7: a corpus with fewer than `N + 1` tokens produces an empty
chain for order `N ∈ {1, 2}`, and no error. -/
theorem short_corpus_empty_chain (words : List String) :
    (words.length < 2 → buildChain1 words = []) ∧
    (words.length < 3 → buildChain2 words = []) := by
  constructor
  · intro h
    rcases words with _ | ⟨a, _ | ⟨b, rest⟩⟩
    · rfl
    · rfl
    · simp only [List.length_cons] at h
      omega
  · intro h
    rcases words with _ | ⟨a, _ | ⟨b, _ | ⟨c, rest⟩⟩⟩
    · rfl
    · rfl
    · rfl
    · simp only [List.length_cons] at h
      omega

theorem short_corpus_empty_chain_witness :
    buildChain1 ["a"] = [] ∧ buildChain2 ["a", "b"] = [] :=
  ⟨(short_corpus_empty_chain ["a"]).1 (by decide),
   (short_corpus_empty_chain ["a", "b"]).2 (by decide)⟩

/-- Claim C8: on the corpus of "the brown fox jumped over the lazy dog",
the order-1 chain maps "the" to ["brown", "lazy"] and "fox" to
["jumped"], and the order-2 chain maps ("the", "brown") to ["fox"] and
("over", "the") to ["lazy"]. -/
theorem example_corpus_chains :
    lookup (buildChain1 tbf) "the" = some ["brown", "lazy"] ∧
    lookup (buildChain1 tbf) "fox" = some ["jumped"] ∧
    lookup (buildChain2 tbf) ("the", "brown") = some ["fox"] ∧
    lookup (buildChain2 tbf) ("over", "the") = some ["lazy"] :=
  ⟨by decide, by decide, by decide, by decide⟩

/-- Claim C9, counterexample: a tab character is whitespace, yet the
tokenizer keeps it — the input consisting of the single line `"\t"` is
whitespace-only and tokenizes to the non-empty `[['\t']]`, because the
code only replaces CR and LF and only filters `''` and `' '`. -/
theorem whitespace_only_counterexample :
    (∀ c ∈ ['\t'], c.isWhitespace = true) ∧ tokenize [['\t']] ≠ [] := by
  decide

/-- Claim C9, amended: every input text that is empty or consists only of
spaces, carriage returns and newlines (rather than arbitrary whitespace)
tokenizes to the empty token sequence. -/
theorem space_cr_lf_only_empty_tokens (ls : List (List Char))
    (h : ∀ line ∈ ls, ∀ c ∈ line, c = ' ' ∨ c = '\r' ∨ c = '\n') :
    tokenize ls = [] := by
  unfold tokenize
  exact tokenize_foldl_of_empty ls [] (fun l hl => tokenizeLine_of_space_cr_lf l (h l hl))

theorem space_cr_lf_only_empty_tokens_witness :
    tokenize [[' ', '\r'], ['\n']] = [] :=
  space_cr_lf_only_empty_tokens [[' ', '\r'], ['\n']] (by decide)

/-- Claim C10: every token the tokenizer produces is non-empty, is not the
single-space token, and contains no space, carriage-return or newline
characters. -/
theorem token_shape (ls : List (List Char)) (w : List Char) (hw : w ∈ tokenize ls) :
    w ≠ [] ∧ w ≠ [' '] ∧ ∀ c ∈ w, c ≠ ' ' ∧ c ≠ '\r' ∧ c ≠ '\n' := by
  unfold tokenize at hw
  rcases mem_tokenize_foldl ls [] w hw with h' | ⟨l, _, hwl⟩
  · simp at h'
  · exact tokenizeLine_shape l w hwl

theorem token_shape_witness :
    ['h', 'i'] ≠ ([] : List Char) ∧ ['h', 'i'] ≠ [' '] ∧
    ∀ c ∈ ['h', 'i'], c ≠ ' ' ∧ c ≠ '\r' ∧ c ≠ '\n' :=
  token_shape [['h', 'i']] ['h', 'i'] (by decide)

end MarkovChains
